import Mathlib

/-!
Verification development for the UIB tracking-task layer.

Shallow embedding of the task-layer code:
  * `src/UIB/envs/mobl_arms/tracking/TrackingEnv.py`
    (classes `TrackingEnv` and `ProprioceptionAndVisual`), and
  * `src/UIB/envs/mobl_arms/remote_driving/reward_functions.py`
    (classes `NegativeExpDistance` and `RewardBonus`).

Machine floats are modelled by rationals `ℚ`; the transcendental reward
curve `exp` is stated over `ℝ` through a relation.  External collaborators
(the MuJoCo simulator, the numpy random generator, the math library sine)
are threaded as explicit parameters or inputs, mirroring the call contracts
described in the module.
-/

namespace UIB

/-- A depth frame: the single-channel image supplied per step by the visual
source, flattened to a list of pixel values. -/
abbrev Frame := List ℚ

/-- Elementwise difference of two same-shape frames, as in the numpy
expression `a - b` on arrays of identical shape. -/
def frameSub (a b : Frame) : Frame := List.zipWith (fun x y => x - y) a b

/-- The refill loop of `ProprioceptionAndVisual.get_observation`:
`while len(self.visual_buffer) < self.visual_buffer.maxlen:
self.visual_buffer.appendleft(depth)` with `maxlen = 3`.  The deque is a
list with its left end at the head, so `appendleft` is `cons`.  The loop
body can run at most 3 times, so it is unrolled with fuel 3. -/
def appendleftLoop (depth : Frame) : ℕ → List Frame → List Frame
  | 0, buf => buf
  | n + 1, buf => if buf.length < 3 then appendleftLoop depth n (depth :: buf) else buf

/-- The visual-buffer update in `ProprioceptionAndVisual.get_observation`:
`if len(self.visual_buffer) > 0: self.visual_buffer.pop()` followed by the
`appendleft` refill loop.  `deque.pop()` removes the right end, i.e. the
last element of the list. -/
def get_observation_buffer (buf : List Frame) (depth : Frame) : List Frame :=
  let buf1 := if 0 < buf.length then buf.dropLast else buf
  appendleftLoop depth 3 buf1

/-- The assembled visual observation of `ProprioceptionAndVisual.get_observation`:
`np.concatenate([buf[0], buf[2], buf[2] - buf[0]], axis=2)`, modelled as the
triple of its three channels. -/
def assembleVisual (buf : List Frame) : Frame × Frame × Frame :=
  (buf.getD 0 [], buf.getD 2 [], frameSub (buf.getD 2 []) (buf.getD 0 []))

/-- Closed form of the refill loop for buffers within capacity: the new
frame is prepended until the length reaches 3. -/
lemma appendleftLoop_closed_form (d : Frame) :
    ∀ buf : List Frame, buf.length ≤ 3 →
      appendleftLoop d 3 buf = List.replicate (3 - buf.length) d ++ buf
  | [], _ => rfl
  | [a], _ => rfl
  | [a, b], _ => rfl
  | [a, b, c], _ => rfl
  | a :: b :: c :: e :: tl, h => by simp at h

/-- The buffer after an observation request always has length 3 when it
started within capacity. -/
lemma get_observation_buffer_length (buf : List Frame) (d : Frame) (h : buf.length ≤ 3) :
    (get_observation_buffer buf d).length = 3 := by
  cases buf with
  | nil => rfl
  | cons a tl =>
    have hlen : (a :: tl).dropLast.length ≤ 3 := by
      simp only [List.length_dropLast, List.length_cons]
      simp only [List.length_cons] at h
      omega
    unfold get_observation_buffer
    simp only [List.length_cons, Nat.zero_lt_succ, if_pos]
    rw [appendleftLoop_closed_form d _ hlen]
    simp only [List.length_append, List.length_replicate, List.length_dropLast,
      List.length_cons]
    simp only [List.length_cons] at h
    omega

/-- Claim C2, counterexample.  With buffer `[[1], [2], [3]]` (most recently
pushed frame `[1]` at the front, since insertion is `appendleft`) and new
frame `[4]`, the code evicts the oldest frame `[3]` and keeps the newest
frame `[1]`, contradicting the claim that the most-recently-pushed frame is
evicted. -/
theorem claim_C2_counterexample :
    get_observation_buffer [[1], [2], [3]] [4] = [[4], [1], [2]] ∧
    ([1] : Frame) ∈ get_observation_buffer [[1], [2], [3]] [4] ∧
    ([3] : Frame) ∉ get_observation_buffer [[1], [2], [3]] [4] := by
  decide

/-- Claim C2, amended.  On an observation request with a nonempty buffer the
code evicts the single least-recently-pushed (oldest) frame — `deque.pop()`
removes the end opposite to the `appendleft` insertion end — and then
refills from the front with the new frame until the buffer reaches
capacity 3; whenever at least two frames are held, the most-recently-pushed
frame is retained. -/
theorem claim_C2_amended (buf : List Frame) (d : Frame) (h1 : buf ≠ [])
    (h2 : buf.length ≤ 3) :
    get_observation_buffer buf d
      = List.replicate (3 - buf.dropLast.length) d ++ buf.dropLast ∧
    (2 ≤ buf.length → ∀ f, buf.head? = some f →
      f ∈ get_observation_buffer buf d) := by
  constructor
  · unfold get_observation_buffer
    rw [if_pos (List.length_pos.mpr h1)]
    exact appendleftLoop_closed_form d _
      (by simp only [List.length_dropLast]; omega)
  · intro hlen f hf
    rcases buf with _ | ⟨a, _ | ⟨b, tl⟩⟩
    · exact absurd rfl h1
    · simp at hlen
    · have hfa : a = f := by simpa using hf
      subst hfa
      unfold get_observation_buffer
      simp only [List.length_cons, Nat.zero_lt_succ, if_pos]
      rw [appendleftLoop_closed_form d _ (by
        simp only [List.length_dropLast, List.length_cons]
        simp only [List.length_cons] at h2
        omega)]
      refine List.mem_append_right _ ?_
      show a ∈ a :: (b :: tl).dropLast
      exact List.mem_cons_self a _

/-- Claim C2, witness for the amended theorem at buffer `[[1], [2]]` and new
frame `[9]`. -/
theorem claim_C2_witness :
    get_observation_buffer [[1], [2]] [9] = [[9], [9], [1]] ∧
    ([1] : Frame) ∈ get_observation_buffer [[1], [2]] [9] := by
  have h := claim_C2_amended [[1], [2]] [9] (by decide) (by decide)
  exact ⟨h.1, h.2 (by decide) [1] rfl⟩

/-- Claim C9.  Starting from an empty buffer, a single observation request
with frame `d` yields all three buffer slots equal to `d`, so the assembled
composite has both image channels equal to `d` and an all-zero difference
channel. -/
theorem claim_C9_thm (d : Frame) :
    get_observation_buffer [] d = [d, d, d] ∧
    assembleVisual (get_observation_buffer [] d) = (d, d, frameSub d d) ∧
    frameSub d d = List.replicate d.length 0 := by
  refine ⟨rfl, rfl, ?_⟩
  induction d with
  | nil => rfl
  | cons x xs ih =>
    show (x - x) :: frameSub xs xs = List.replicate (xs.length + 1) 0
    rw [ih, sub_self]
    rfl

/-- Claim C9, witness at the concrete frame `[5]`. -/
theorem claim_C9_witness :
    get_observation_buffer [] [5] = [[5], [5], [5]] ∧
    assembleVisual (get_observation_buffer [] [5]) = ([5], [5], frameSub [5] [5]) ∧
    frameSub [5] [5] = List.replicate ([(5 : ℚ)] : Frame).length 0 :=
  claim_C9_thm [5]

/-- Claim C10.  After every observation request on a buffer within capacity
(0 to 3 frames), the buffer holds exactly 3 frames, and the returned visual
observation is the channel concatenation of slot 0, slot 2 and slot 2 minus
slot 0, so its third channel equals its second channel minus its first
channel elementwise. -/
theorem claim_C10_thm (buf : List Frame) (d : Frame) (h : buf.length ≤ 3) :
    (get_observation_buffer buf d).length = 3 ∧
    assembleVisual (get_observation_buffer buf d) =
      ((get_observation_buffer buf d).getD 0 [],
        (get_observation_buffer buf d).getD 2 [],
        frameSub ((get_observation_buffer buf d).getD 2 [])
          ((get_observation_buffer buf d).getD 0 [])) ∧
    (assembleVisual (get_observation_buffer buf d)).2.2 =
      frameSub (assembleVisual (get_observation_buffer buf d)).2.1
        (assembleVisual (get_observation_buffer buf d)).1 :=
  ⟨get_observation_buffer_length buf d h, rfl, rfl⟩

/-- Claim C10, witness at the two-frame buffer `[[1], [2]]` and new frame
`[7]`. -/
theorem claim_C10_witness :
    (get_observation_buffer [[1], [2]] [7]).length = 3 ∧
    assembleVisual (get_observation_buffer [[1], [2]] [7]) =
      ((get_observation_buffer [[1], [2]] [7]).getD 0 [],
        (get_observation_buffer [[1], [2]] [7]).getD 2 [],
        frameSub ((get_observation_buffer [[1], [2]] [7]).getD 2 [])
          ((get_observation_buffer [[1], [2]] [7]).getD 0 [])) ∧
    (assembleVisual (get_observation_buffer [[1], [2]] [7])).2.2 =
      frameSub (assembleVisual (get_observation_buffer [[1], [2]] [7])).2.1
        (assembleVisual (get_observation_buffer [[1], [2]] [7])).1 :=
  claim_C10_thm [[1], [2]] [7] (by decide)

/-- State of the `RewardBonus` reward term from
`remote_driving/reward_functions.py`: a configured bonus value, the
`onetime` flag, and the mutable `active` flag. -/
structure RewardBonus where
  bonus : ℚ
  onetime : Bool
  active : Bool
deriving DecidableEq, Repr

/-- The state produced by `RewardBonus.__init__` with its default arguments
`bonus=8, onetime=False`; `active` starts true. -/
def RewardBonus.init : RewardBonus := ⟨8, false, true⟩

/-- `RewardBonus.get(get_bonus)`: returns the bonus when triggered while
active (deactivating itself first when `onetime`), else 0; the mutated
object is returned as the second component. -/
def RewardBonus.get (s : RewardBonus) (get_bonus : Bool) : ℚ × RewardBonus :=
  if get_bonus && s.active then
    (s.bonus, if s.onetime then { s with active := false } else s)
  else
    (0, s)

/-- `RewardBonus.reset()`: sets `active = True` unconditionally. -/
def RewardBonus.reset (s : RewardBonus) : RewardBonus := { s with active := true }

/-- A sequence of `RewardBonus.get` calls with the given triggers, returning
the list of returned rewards and the final state. -/
def runGets (s : RewardBonus) : List Bool → List ℚ × RewardBonus
  | [] => ([], s)
  | t :: ts =>
    let r := s.get t
    let rest := runGets r.2 ts
    (r.1 :: rest.1, rest.2)

/-- An inactive `RewardBonus` stays inactive and returns 0 on every call. -/
lemma runGets_inactive (ts : List Bool) (s : RewardBonus) (h : s.active = false) :
    runGets s ts = (ts.map (fun _ => (0 : ℚ)), s) := by
  induction ts with
  | nil => rfl
  | cons t ts ih =>
    have hget : s.get t = (0, s) := by
      unfold RewardBonus.get
      rw [h]
      simp
    simp only [runGets, hget, ih]
    rfl

/-- A non-one-time `RewardBonus` never changes state on `get`. -/
lemma get_state_of_not_onetime (s : RewardBonus) (t : Bool) (h : s.onetime = false) :
    (s.get t).2 = s := by
  unfold RewardBonus.get
  rw [h]
  by_cases hc : (t && s.active) = true
  · rw [if_pos hc]; simp
  · rw [if_neg hc]

/-- Claim C7.  `RewardBonus.get(trigger)` returns the configured bonus
(default 8) exactly when the trigger is true and the term is active, else 0;
with `onetime = true` a granted bonus deactivates the term so every later
call returns 0 until `reset()`, which reactivates it unconditionally so the
next triggered call returns the bonus again; with `onetime = false` every
triggered call returns the bonus independent of prior calls. -/
theorem claim_C7_thm (s : RewardBonus) (ts : List Bool) :
    (RewardBonus.init.bonus = 8 ∧ RewardBonus.init.onetime = false ∧
      RewardBonus.init.active = true) ∧
    (∀ t, (s.get t).1 = if t && s.active then s.bonus else 0) ∧
    (s.onetime = true → s.active = true →
      (runGets s (true :: ts)).1 = s.bonus :: ts.map (fun _ => (0 : ℚ))) ∧
    (s.reset.active = true ∧ (s.reset.get true).1 = s.bonus) ∧
    (s.onetime = false → s.active = true →
      (runGets s ts).1 = ts.map (fun t => if t then s.bonus else 0)) := by
  refine ⟨⟨rfl, rfl, rfl⟩, ?_, ?_, ?_, ?_⟩
  · intro t
    unfold RewardBonus.get
    by_cases hc : (t && s.active) = true
    · rw [if_pos hc, if_pos hc]
    · rw [if_neg hc, if_neg hc]
  · intro h1 h2
    have hget : s.get true = (s.bonus, { s with active := false }) := by
      unfold RewardBonus.get
      rw [h2, h1]
      simp
    simp only [runGets, hget]
    rw [runGets_inactive ts { s with active := false } rfl]
  · refine ⟨rfl, ?_⟩
    unfold RewardBonus.get RewardBonus.reset
    simp
  · intro h1 h2
    induction ts with
    | nil => rfl
    | cons t ts ih =>
      have hst : (s.get t).2 = s := get_state_of_not_onetime s t h1
      have hval : (s.get t).1 = if t then s.bonus else 0 := by
        unfold RewardBonus.get
        rw [h2]
        by_cases ht : t
        · subst ht; simp
        · simp at ht; subst ht; simp
      simp only [runGets, hst, hval, ih, List.map_cons]

/-- Claim C7, witness: one-time bonus grants 8 once and then 0 until reset,
reset restores the bonus, and a non-one-time bonus pays on every trigger. -/
theorem claim_C7_witness :
    (runGets ⟨8, true, true⟩ [true, true, false]).1 = [8, 0, 0] ∧
    ((⟨8, true, true⟩ : RewardBonus).reset.get true).1 = 8 ∧
    (runGets ⟨8, false, true⟩ [true, true]).1 = [8, 8] := by
  have h1 := claim_C7_thm ⟨8, true, true⟩ [true, false]
  have h2 := claim_C7_thm ⟨8, false, true⟩ [true, true]
  exact ⟨h1.2.2.1 rfl rfl, h1.2.2.2.1.2, h2.2.2.2.2 rfl rfl⟩

/-- The inside-target test of `TrackingEnv.step`:
`dist <= self.target_radius`. -/
def inside_target (dist radius : ℚ) : Bool := dist ≤ radius

/-- The tracking reward contribution of `TrackingEnv.step` as a relation on
the real-valued reward: `0` when the distance is within the radius, else
`np.exp(-(dist - radius) * 10) - 1`. -/
def trackingRewardRel (dist radius : ℚ) (reward : ℝ) : Prop :=
  if dist ≤ radius then reward = 0
  else reward = Real.exp (-(((dist : ℝ)) - ((radius : ℝ))) * 10) - 1

/-- The per-episode mutable state of `TrackingEnv` that the step method
touches: step counter, step limit, target radius, the two per-episode
trajectories, the current target position (the x component is constantly 0
and omitted), and the visual buffer of the derived class. -/
structure TrackingState where
  steps : ℕ
  max_episode_steps : ℕ
  target_radius : ℚ
  sin_y : List ℚ
  sin_z : List ℚ
  target_y : ℚ
  target_z : ℚ
  visual_buffer : List Frame
deriving DecidableEq, Repr

/-- `TrackingEnv.update_target_location`: reads `self.sin_y[self.steps]` and
`self.sin_z[self.steps]`; an out-of-range index raises `IndexError`,
modelled as `none`. -/
def update_target_location (s : TrackingState) : Option TrackingState :=
  match s.sin_y.get? s.steps, s.sin_z.get? s.steps with
  | some y, some z => some { s with target_y := y, target_z := z }
  | _, _ => none

/-- The information returned by `TrackingEnv.step`: the `termination` entry
of the info dict (`None` modelling the Python `False`), the `inside_target`
entry, and the `finished` flag. -/
structure StepInfo where
  termination : Option String
  inside_target : Bool
  finished : Bool
deriving DecidableEq, Repr

/-- `TrackingEnv.step` control flow (with `ProprioceptionAndVisual`'s
buffer update in the returned observation).  External collaborators enter
as inputs: `sim_fail` is whether `self.sim.step()` raised
`mujoco_py.builder.MujocoException`, `dist` is the computed distance to the
target and `depth` the raw depth frame.  The numeric reward (shaping plus
effort term) is modelled separately by `trackingRewardRel`.  A `none`
result models an uncaught `IndexError` from `update_target_location`. -/
def step (s : TrackingState) (sim_fail : Bool) (dist : ℚ) (depth : Frame) :
    Option (StepInfo × TrackingState) :=
  let finished0 := sim_fail
  let term0 : Option String := if sim_fail then some ("MujocoException") else none
  let inside := inside_target dist s.target_radius
  let steps1 := s.steps + 1
  let finished1 := if s.max_episode_steps ≤ steps1 then true else finished0
  let term1 : Option String :=
    if s.max_episode_steps ≤ steps1 then some ("time_limit_reached") else term0
  match update_target_location { s with steps := steps1 } with
  | none => none
  | some s1 =>
    some ({ termination := term1, inside_target := inside, finished := finished1 },
      { s1 with visual_buffer := get_observation_buffer s1.visual_buffer depth })

/-- When the (incremented) step counter is a valid trajectory index, the
target update succeeds and writes the indexed samples. -/
lemma update_target_location_of_lt (s : TrackingState)
    (hy : s.steps < s.sin_y.length) (hz : s.steps < s.sin_z.length) :
    update_target_location s
      = some { s with target_y := s.sin_y.get ⟨s.steps, hy⟩,
                      target_z := s.sin_z.get ⟨s.steps, hz⟩ } := by
  unfold update_target_location
  rw [List.get?_eq_get hy, List.get?_eq_get hz]

/-- A fresh two-step episode state: counter 0, limit 2, trajectories of
length 2 (one sample per step, as generated). -/
def c1_state0 : TrackingState :=
  { steps := 0, max_episode_steps := 2, target_radius := 1,
    sin_y := [3, 4], sin_z := [6, 7],
    target_y := 3, target_z := 6, visual_buffer := [] }

/-- The state after the first successful step of `c1_state0`. -/
def c1_state1 : TrackingState :=
  { steps := 1, max_episode_steps := 2, target_radius := 1,
    sin_y := [3, 4], sin_z := [6, 7],
    target_y := 4, target_z := 7, visual_buffer := [[0], [0], [0]] }

/-- Claim C1, code evaluation at the failing input.  With
`max_episode_steps = 2`, the first step call returns normally with no
termination, but the second (final) call — which the claim says returns
terminal with `termination = "time_limit_reached"` — instead fails: the
counter reaches 2 and `update_target_location` indexes the length-2
trajectory out of range, raising `IndexError` before the return. -/
theorem claim_C1_thm :
    step c1_state0 false 5 [0] = some (⟨none, false, false⟩, c1_state1) ∧
    step c1_state1 false 5 [0] = none := by
  decide

/-- The state after a first step of `c4_state0` during which the simulator
raised `MujocoException`. -/
def c4_state0 : TrackingState :=
  { steps := 0, max_episode_steps := 5, target_radius := 1,
    sin_y := [0, 0, 0, 0, 0], sin_z := [0, 0, 0, 0, 0],
    target_y := 0, target_z := 0, visual_buffer := [] }

/-- Successor of `c4_state0` after one step. -/
def c4_state1 : TrackingState :=
  { steps := 1, max_episode_steps := 5, target_radius := 1,
    sin_y := [0, 0, 0, 0, 0], sin_z := [0, 0, 0, 0, 0],
    target_y := 0, target_z := 0, visual_buffer := [[0], [0], [0]] }

/-- Claim C4, counterexample.  When the simulator's integration step fails,
the info mapping records the termination reason `"MujocoException"`, not
`"simulation_failure"` as the claim states. -/
theorem claim_C4_counterexample :
    step c4_state0 true 5 [0]
      = some (⟨some ("MujocoException"), false, true⟩, c4_state1) ∧
    ("MujocoException" : String) ≠ ("simulation_failure" : String) := by
  decide

/-- Claim C4, amended.  When the simulator's integration step reports an
internal numerical failure during a non-final step, the episode terminates
immediately: the call returns normally (the exception is caught, not
retried and not propagated) with terminal = true and the termination reason
recorded as `"MujocoException"`. -/
theorem claim_C4_amended (s : TrackingState) (dist : ℚ) (depth : Frame)
    (h1 : s.sin_y.length = s.max_episode_steps)
    (h2 : s.sin_z.length = s.max_episode_steps)
    (h3 : s.steps + 1 < s.max_episode_steps) :
    ((step s true dist depth).map fun r => (r.1.finished, r.1.termination))
      = some (true, some ("MujocoException")) := by
  have hy : s.steps + 1 < s.sin_y.length := by omega
  have hz : s.steps + 1 < s.sin_z.length := by omega
  have hupd := update_target_location_of_lt { s with steps := s.steps + 1 } hy hz
  have hlt : ¬ (s.max_episode_steps ≤ s.steps + 1) := by omega
  simp [step, hupd, hlt]

/-- Claim C4, witness for the amended theorem at a concrete state. -/
theorem claim_C4_witness :
    ((step c4_state0 true 5 [0]).map fun r => (r.1.finished, r.1.termination))
      = some (true, some ("MujocoException")) :=
  claim_C4_amended c4_state0 5 [0] rfl rfl (by decide)

/-- Claim C6.  A distance exactly equal to the target radius counts as
inside and contributes reward 0; a distance exceeding the radius by ε > 0
counts as outside and contributes `exp(-ε * 10) - 1`, which is strictly
negative. -/
theorem claim_C6_thm (radius ε : ℚ) (hε : 0 < ε) :
    inside_target radius radius = true ∧
    trackingRewardRel radius radius 0 ∧
    inside_target (radius + ε) radius = false ∧
    trackingRewardRel (radius + ε) radius (Real.exp (-((ε : ℝ)) * 10) - 1) ∧
    Real.exp (-((ε : ℝ)) * 10) - 1 < 0 := by
  refine ⟨by simp [inside_target], ?_, ?_, ?_, ?_⟩
  · unfold trackingRewardRel
    rw [if_pos (le_refl radius)]
  · have hout : ¬ (radius + ε ≤ radius) := by linarith
    simp [inside_target, hout]
  · unfold trackingRewardRel
    rw [if_neg (by linarith)]
    have harg : (-((((radius + ε) : ℚ) : ℝ) - ((radius : ℚ) : ℝ)) * 10)
        = -((ε : ℝ)) * 10 := by
      push_cast
      ring
    rw [harg]
  · have hneg : -((ε : ℝ)) * 10 < 0 := by
      have hpos : (0 : ℝ) < (ε : ℝ) := by exact_mod_cast hε
      nlinarith
    have hexp := Real.exp_lt_exp.mpr hneg
    rw [Real.exp_zero] at hexp
    linarith

/-- Claim C6, witness at radius 0 and ε = 1. -/
theorem claim_C6_witness :
    inside_target 0 0 = true ∧
    trackingRewardRel 0 0 0 ∧
    inside_target (0 + 1) 0 = false ∧
    trackingRewardRel (0 + 1) 0 (Real.exp (-(((1 : ℚ)) : ℝ) * 10) - 1) ∧
    Real.exp (-(((1 : ℚ)) : ℝ) * 10) - 1 < 0 :=
  claim_C6_thm 0 1 (by norm_num)

/-- The float constant `2 * np.pi` used by `generate_sine_wave`, modelled by
the decimal value of the double `6.283185307179586`. -/
def twoPi : ℚ := 6283185307179586 / 1000000000000000

/-- `np.min` over a nonempty vector, as a left fold; 0 on the empty vector
(numpy raises there, a case excluded by nonempty raw signals). -/
def listMin : List ℚ → ℚ
  | [] => 0
  | x :: xs => xs.foldl min x

/-- `np.max` over a nonempty vector, as a left fold; 0 on the empty vector. -/
def listMax : List ℚ → ℚ
  | [] => 0
  | x :: xs => xs.foldl max x

lemma foldl_min_le (xs : List ℚ) : ∀ acc : ℚ,
    xs.foldl min acc ≤ acc ∧ ∀ y ∈ xs, xs.foldl min acc ≤ y := by
  induction xs with
  | nil => exact fun acc => ⟨le_refl acc, by simp⟩
  | cons x xs ih =>
    intro acc
    refine ⟨le_trans (ih (min acc x)).1 (min_le_left acc x), ?_⟩
    intro y hy
    rcases List.mem_cons.mp hy with hyx | hyxs
    · subst hyx
      exact le_trans (ih (min acc y)).1 (min_le_right acc y)
    · exact (ih (min acc x)).2 y hyxs

lemma le_foldl_max (xs : List ℚ) : ∀ acc : ℚ,
    acc ≤ xs.foldl max acc ∧ ∀ y ∈ xs, y ≤ xs.foldl max acc := by
  induction xs with
  | nil => exact fun acc => ⟨le_refl acc, by simp⟩
  | cons x xs ih =>
    intro acc
    refine ⟨le_trans (le_max_left acc x) (ih (max acc x)).1, ?_⟩
    intro y hy
    rcases List.mem_cons.mp hy with hyx | hyxs
    · subst hyx
      exact le_trans (le_max_right acc y) (ih (max acc y)).1
    · exact (ih (max acc x)).2 y hyxs

lemma listMin_le (xs : List ℚ) (y : ℚ) (h : y ∈ xs) : listMin xs ≤ y := by
  cases xs with
  | nil => cases h
  | cons a tl =>
    rcases List.mem_cons.mp h with hya | hytl
    · subst hya
      exact (foldl_min_le tl y).1
    · exact (foldl_min_le tl a).2 y hytl

lemma le_listMax (xs : List ℚ) (y : ℚ) (h : y ∈ xs) : y ≤ listMax xs := by
  cases xs with
  | nil => cases h
  | cons a tl =>
    rcases List.mem_cons.mp h with hya | hytl
    · subst hya
      exact (le_foldl_max tl y).1
    · exact (le_foldl_max tl a).2 y hytl

/-- The normalisation tail of `TrackingEnv.generate_sine_wave`:
`sine = sine - np.min(sine); sine = sine / np.max(sine);
sine = limits[0] + (limits[1] - limits[0]) * sine`.  When the shifted signal
has maximum 0 (a constant raw signal) the division is `0 / 0`, which numpy
turns into NaN; that outcome is modelled as `none`.  There is no guard in
the code. -/
def normalizeToLimits (low high : ℚ) (raw : List ℚ) : Option (List ℚ) :=
  let shifted := raw.map (fun x => x - listMin raw)
  if listMax shifted = 0 then none
  else
    let scaled := shifted.map (fun x => x / listMax shifted)
    some (scaled.map (fun x => low + (high - low) * x))

/-- Every value produced by a successful normalisation lies in
`[low, high]`. -/
lemma normalizeToLimits_bounds (low high : ℚ) (raw : List ℚ) (hlh : low ≤ high)
    (ys : List ℚ) (h : normalizeToLimits low high raw = some ys) :
    ∀ y ∈ ys, low ≤ y ∧ y ≤ high := by
  simp only [normalizeToLimits] at h
  by_cases hM : listMax (raw.map fun x => x - listMin raw) = 0
  · rw [if_pos hM] at h
    cases h
  · rw [if_neg hM] at h
    have hys := Option.some.inj h
    intro y hy
    rw [← hys] at hy
    obtain ⟨z, hz, hzy⟩ := List.mem_map.mp hy
    obtain ⟨x, hx, hxz⟩ := List.mem_map.mp hz
    have hx0 : 0 ≤ x := by
      obtain ⟨a, ha, hax⟩ := List.mem_map.mp hx
      rw [← hax]
      exact sub_nonneg.mpr (listMin_le raw a ha)
    have hxM : x ≤ listMax (raw.map fun x => x - listMin raw) :=
      le_listMax _ x hx
    have hMpos : 0 < listMax (raw.map fun x => x - listMin raw) :=
      lt_of_le_of_ne (le_trans hx0 hxM) (Ne.symm hM)
    rw [← hzy, ← hxz]
    constructor
    · have hnn : 0 ≤ (high - low) * (x / listMax (raw.map fun x => x - listMin raw)) :=
        mul_nonneg (by linarith) (div_nonneg hx0 (le_of_lt hMpos))
      linarith
    · have hdiv : x / listMax (raw.map fun x => x - listMin raw) ≤ 1 :=
        (div_le_one hMpos).mpr hxM
      have hub : (high - low) * (x / listMax (raw.map fun x => x - listMin raw))
          ≤ (high - low) * 1 :=
        mul_le_mul_of_nonneg_left hdiv (by linarith)
      rw [mul_one] at hub
      linarith

/-- One additive sine component of `generate_sine_wave` sampled at step `k`:
`amplitude * sin(frequency * 2 * pi * t_k + phase)` with `t_k = k * dt`. -/
def sineTerm (sinFn : ℚ → ℚ) (dt : ℚ) (k : ℕ) (c : ℚ × ℚ × ℚ) : ℚ :=
  c.1 * sinFn (c.2.1 * twoPi * ((k : ℚ) * dt) + c.2.2)

/-- The raw summed sine signal of `generate_sine_wave` over
`t = np.arange(horizon) * dt`, given the sampled
(amplitude, frequency, phase) triples; `sinFn` is the external math-library
sine routine. -/
def buildRaw (sinFn : ℚ → ℚ) (dt : ℚ) (horizon : ℕ) (draws : List (ℚ × ℚ × ℚ)) : List ℚ :=
  (List.range horizon).map fun k => (draws.map (sineTerm sinFn dt k)).sum

/-- The `num_components` loop of `generate_sine_wave`: for each component it
draws, in order, `uniform(min_amplitude, max_amplitude)`,
`uniform(min_frequency, max_frequency)` and `uniform(0, 2*pi)` from the
random source `u`, threading its state. -/
def drawSines {σ : Type} (u : ℚ → ℚ → σ → ℚ × σ)
    (minAmp maxAmp minFreq maxFreqEff : ℚ) : ℕ → σ → List (ℚ × ℚ × ℚ) × σ
  | 0, st => ([], st)
  | n + 1, st =>
    let a := u minAmp maxAmp st
    let f := u minFreq maxFreqEff a.2
    let p := u 0 twoPi f.2
    let rest := drawSines u minAmp maxAmp minFreq maxFreqEff n p.2
    ((a.1, f.1, p.1) :: rest.1, rest.2)

/-- `TrackingEnv.generate_sine_wave`, with the external collaborators made
explicit: `u` is the per-instance random source (numpy Generator) as a
state-passing uniform sampler, `sinFn` the math-library sine, and `factor`
the value returned by the curriculum callable.  Returns the normalised
sequence (or `none` for the NaN-producing constant raw signal) and the
advanced random state. -/
def generate_sine_wave {σ : Type} (u : ℚ → ℚ → σ → ℚ × σ) (sinFn : ℚ → ℚ)
    (low high minAmp maxAmp min_frequency max_frequency factor dt : ℚ)
    (num_components horizon : ℕ) (st : σ) : Option (List ℚ) × σ :=
  let maxf := min_frequency + (max_frequency - min_frequency) * factor
  let d := drawSines u minAmp maxAmp min_frequency maxf num_components st
  (normalizeToLimits low high (buildRaw sinFn dt horizon d.1), d.2)

/-- A Python callable: its number of required positional parameters and the
function applied to the received arguments. -/
structure PyCallable where
  arity : ℕ
  fn : List ℚ → ℚ

/-- The default of `kwargs.get('freq_curriculum', lambda x: 1.0)` in
`TrackingEnv.__init__`: a ONE-parameter lambda that returns 1.0. -/
def default_freq_curriculum : PyCallable := ⟨1, fun _ => 1⟩

/-- Calling a Python callable with zero arguments, as in
`self.freq_curriculum()`: a `TypeError` unless the callable takes zero
required positional arguments. -/
def callNoArgs (f : PyCallable) : Except String ℚ :=
  if f.arity = 0 then Except.ok (f.fn []) else Except.error ("TypeError")

/-- The first line of `generate_sine_wave`:
`max_frequency = self.min_frequency +
(self.max_frequency - self.min_frequency) * self.freq_curriculum()`. -/
def max_frequency_effective (min_frequency max_frequency : ℚ)
    (freq_curriculum : PyCallable) : Except String ℚ :=
  (callNoArgs freq_curriculum).map
    (fun c => min_frequency + (max_frequency - min_frequency) * c)

/-- Claim C5, code evaluation at the failing input.  With no
`freq_curriculum` option the default callable is `lambda x: 1.0`, which
requires one positional argument; `self.freq_curriculum()` invokes it with
zero arguments, so the effective-max-frequency computation raises
`TypeError` instead of returning `max_frequency`.  A zero-argument callable
returning 1 would indeed yield `min + (max - min) * 1 = max`. -/
theorem claim_C5_thm :
    max_frequency_effective (1/10) 2 default_freq_curriculum
      = Except.error ("TypeError") ∧
    max_frequency_effective (1/10) 2 ⟨0, fun _ => 1⟩ = Except.ok 2 := by
  constructor
  · rfl
  · show Except.ok ((1:ℚ)/10 + (2 - 1/10) * 1) = Except.ok 2
    norm_num

/-- Claim C3, counterexample.  With horizon 1 (one trajectory sample) the
raw summed sine signal is constant for every random source, so
`np.max(sine)` is 0 after the shift and the division produces NaN
(modelled `none`): the result is not a sequence of values within
`[low, high] = [0, 1]`, and there is no deterministic fallback. -/
theorem claim_C3_counterexample :
    generate_sine_wave (fun lo _ (st : ℕ) => (lo, st)) (fun x => x)
      0 1 1 5 (1/10) 2 1 1 1 1 0 = (none, 0) := by
  have hdraws : drawSines (fun lo _ (st : ℕ) => (lo, st)) 1 5 (1/10)
      (1/10 + (2 - 1/10) * 1) 1 0 = ([(1, 1/10, 0)], 0) := rfl
  have hraw : buildRaw (fun x => x) 1 1 [((1:ℚ), (1:ℚ)/10, (0:ℚ))] = [0] := by
    have hr1 : List.range 1 = [0] := rfl
    unfold buildRaw
    rw [hr1]
    simp only [List.map_cons, List.map_nil, List.sum_cons, List.sum_nil, sineTerm]
    norm_num
  have hnorm : normalizeToLimits 0 1 [(0:ℚ)] = none := by
    simp [normalizeToLimits, listMin, listMax]
  simp only [generate_sine_wave, hdraws, hraw, hnorm]

/-- Claim C3, amended.  For every limits pair with `low ≤ high`, every
random source and state, every sine routine and every parameter choice,
whenever `generate_sine_wave` returns an actual sequence (its raw summed
signal was non-constant, so the normalisation divides by a nonzero
maximum), every value of that sequence lies within `[low, high]`
inclusive; in the degenerate constant-signal case the code divides zero by
zero and yields NaN (modelled `none`) — there is no explicit guard or
deterministic fallback. -/
theorem claim_C3_amended {σ : Type} (u : ℚ → ℚ → σ → ℚ × σ) (sinFn : ℚ → ℚ)
    (low high minAmp maxAmp minf maxf factor dt : ℚ) (nc horizon : ℕ)
    (st stf : σ) (ys : List ℚ) (hlh : low ≤ high)
    (h : generate_sine_wave u sinFn low high minAmp maxAmp minf maxf factor dt
      nc horizon st = (some ys, stf)) :
    ∀ y ∈ ys, low ≤ y ∧ y ≤ high := by
  have hn := congrArg Prod.fst h
  simp only [generate_sine_wave] at hn
  exact normalizeToLimits_bounds low high _ hlh ys hn

/-- Claim C3, witness for the amended theorem: a concrete two-sample
generation whose output sequence is `[0, 1]`, with the bound checked at the
sample 1. -/
theorem claim_C3_witness : (0:ℚ) ≤ 1 ∧ (1:ℚ) ≤ 1 := by
  have htp : (0:ℚ) < twoPi := by norm_num [twoPi]
  have hdraws : drawSines (fun lo _ (st : ℕ) => (lo, st)) 1 5 1
      (1 + (2 - 1) * 1) 1 0 = ([(1, 1, 0)], 0) := rfl
  have hraw : buildRaw (fun x => x) 1 2 [((1:ℚ), (1:ℚ), (0:ℚ))] = [0, twoPi] := by
    have hr2 : List.range 2 = [0, 1] := rfl
    unfold buildRaw
    rw [hr2]
    simp only [List.map_cons, List.map_nil, List.sum_cons, List.sum_nil, sineTerm]
    norm_num
  have hnorm : normalizeToLimits 0 1 [0, twoPi] = some [0, 1] := by
    simp only [normalizeToLimits, listMin, listMax, List.map_cons, List.map_nil,
      List.foldl_cons, List.foldl_nil]
    rw [min_eq_left htp.le]
    rw [sub_zero, sub_zero]
    rw [max_eq_right htp.le]
    rw [if_neg htp.ne.symm]
    rw [zero_div, div_self htp.ne.symm]
    norm_num
  have hgen : generate_sine_wave (fun lo _ (st : ℕ) => (lo, st)) (fun x => x)
      0 1 1 5 1 2 1 1 1 2 0 = (some [0, 1], 0) := by
    simp only [generate_sine_wave, hdraws, hraw, hnorm]
  have h := claim_C3_amended (fun lo _ (st : ℕ) => (lo, st)) (fun x => x)
    0 1 1 5 1 2 1 1 1 2 0 0 [0, 1] (by norm_num) hgen
  exact h 1 (by simp)

/-- The sequence of random draws performed by the component loop of
`generate_sine_wave`, as a derivation relation: per component one
amplitude, one frequency and one phase draw, in program order, threading
the random-source state. -/
inductive SineDraws {σ : Type} (u : ℚ → ℚ → σ → ℚ × σ)
    (minAmp maxAmp minFreq maxFreqEff : ℚ) :
    ℕ → σ → List (ℚ × ℚ × ℚ) → σ → Prop
  | nil (st : σ) : SineDraws u minAmp maxAmp minFreq maxFreqEff 0 st [] st
  | cons (n : ℕ) (st st1 st2 st3 stf : σ) (a f p : ℚ)
      (rest : List (ℚ × ℚ × ℚ)) :
      u minAmp maxAmp st = (a, st1) →
      u minFreq maxFreqEff st1 = (f, st2) →
      u 0 twoPi st2 = (p, st3) →
      SineDraws u minAmp maxAmp minFreq maxFreqEff n st3 rest stf →
      SineDraws u minAmp maxAmp minFreq maxFreqEff (n + 1) st
        ((a, f, p) :: rest) stf

/-- The draw process is deterministic: from one random-source state, one
run. -/
lemma sineDraws_det {σ : Type} {u : ℚ → ℚ → σ → ℚ × σ}
    {mA MA mF MF : ℚ} {n : ℕ} {st : σ} {l1 : List (ℚ × ℚ × ℚ)} {s1 : σ}
    (h1 : SineDraws u mA MA mF MF n st l1 s1) :
    ∀ {l2 : List (ℚ × ℚ × ℚ)} {s2 : σ},
      SineDraws u mA MA mF MF n st l2 s2 → l1 = l2 ∧ s1 = s2 := by
  induction h1 with
  | nil st =>
    intro l2 s2 h2
    cases h2
    exact ⟨rfl, rfl⟩
  | cons n st st1 st2 st3 stf a f p rest ha hf hp hrest ih =>
    intro l2 s2 h2
    cases h2
    rename_i st1b st2b st3b ab fb pb restb hfreqb hphaseb hampb hrestb
    rw [ha] at hampb
    injection hampb with hab1 hab2
    subst hab1
    subst hab2
    rw [hf] at hfreqb
    injection hfreqb with hfb1 hfb2
    subst hfb1
    subst hfb2
    rw [hp] at hphaseb
    injection hphaseb with hpb1 hpb2
    subst hpb1
    subst hpb2
    obtain ⟨hl, hs⟩ := ih hrestb
    rw [hl, hs]
    exact ⟨rfl, rfl⟩

/-- One full run of `generate_sine_wave` as a relation between the initial
random state and the (output, final state) pair: some derivation of the
component draws followed by the pure signal construction and
normalisation. -/
def GenRel {σ : Type} (u : ℚ → ℚ → σ → ℚ × σ) (sinFn : ℚ → ℚ)
    (low high minAmp maxAmp min_frequency max_frequency factor dt : ℚ)
    (num_components horizon : ℕ) (st : σ) (out : Option (List ℚ)) (stf : σ) :
    Prop :=
  ∃ draws,
    SineDraws u minAmp maxAmp min_frequency
      (min_frequency + (max_frequency - min_frequency) * factor)
      num_components st draws stf ∧
    out = normalizeToLimits low high (buildRaw sinFn dt horizon draws)

/-- Claim C8.  Trajectory generation is deterministic: two runs from an
identical random-source state with identical parameters (limits, component
count, amplitude and frequency ranges, curriculum factor, horizon, dt)
produce identical output sequences (and identical final random states). -/
theorem claim_C8_thm {σ : Type} (u : ℚ → ℚ → σ → ℚ × σ) (sinFn : ℚ → ℚ)
    (low high minAmp maxAmp minf maxf factor dt : ℚ) (nc horizon : ℕ)
    (st : σ) (o1 o2 : Option (List ℚ)) (s1 s2 : σ)
    (h1 : GenRel u sinFn low high minAmp maxAmp minf maxf factor dt
      nc horizon st o1 s1)
    (h2 : GenRel u sinFn low high minAmp maxAmp minf maxf factor dt
      nc horizon st o2 s2) :
    o1 = o2 ∧ s1 = s2 := by
  obtain ⟨d1, hd1, ho1⟩ := h1
  obtain ⟨d2, hd2, ho2⟩ := h2
  obtain ⟨hd, hst⟩ := sineDraws_det hd1 hd2
  subst hd
  exact ⟨ho1.trans ho2.symm, hst⟩

/-- The function `drawSines` realises the draw relation. -/
lemma drawSines_sound {σ : Type} (u : ℚ → ℚ → σ → ℚ × σ)
    (mA MA mF MF : ℚ) : ∀ (n : ℕ) (st : σ),
    SineDraws u mA MA mF MF n st
      (drawSines u mA MA mF MF n st).1 (drawSines u mA MA mF MF n st).2
  | 0, st => SineDraws.nil st
  | n + 1, st =>
    SineDraws.cons n st _ _ _ _ _ _ _ _ rfl rfl rfl
      (drawSines_sound u mA MA mF MF n _)

/-- Claim C8, witness: two runs of the generator from the same concrete
random state, both satisfying `GenRel` via `drawSines_sound`, have equal
outputs and final states. -/
theorem claim_C8_witness :
    normalizeToLimits 0 1 (buildRaw (fun x => x) 1 2
        (drawSines (fun lo _ (st : ℕ) => (lo, st)) 1 5 1
          (1 + (2 - 1) * 1) 1 0).1)
      = normalizeToLimits 0 1 (buildRaw (fun x => x) 1 2
        (drawSines (fun lo _ (st : ℕ) => (lo, st)) 1 5 1
          (1 + (2 - 1) * 1) 1 0).1) ∧ (0 : ℕ) = 0 :=
  claim_C8_thm (fun lo _ (st : ℕ) => (lo, st)) (fun x => x)
    0 1 1 5 1 2 1 1 1 2 0 _ _ _ _
    ⟨_, drawSines_sound _ 1 5 1 (1 + (2 - 1) * 1) 1 0, rfl⟩
    ⟨_, drawSines_sound _ 1 5 1 (1 + (2 - 1) * 1) 1 0, rfl⟩

end UIB
